import Mathlib

/-!
Verification of the toml-query `set` extension (src/set.rs, src/error.rs).

The corpus ships `set.rs` and `error.rs`; the tokenizer
(`crate::tokenizer`) and the mutating resolver
(`crate::resolver::mut_resolver`) are referenced but their sources are
not in the corpus, so they are modelled from the specification
(spec.md §4.1, §4.2, §4.3), constrained by the behaviour that `set.rs`
(its doc comment and its in-repo tests) pins down.

The document tree `toml::Value` is embedded as an inductive with the
three shapes the code distinguishes (Table, Array, everything else a
scalar leaf); `toml::map::Map` is embedded as an association list whose
insert replaces in place when the key is present and appends otherwise,
which matches the observable lookup behaviour of the map used by the
source.  Rust in-place mutation is embedded as state passing: every
mutating function returns the tree after the call next to the result,
also on the error path.
-/

namespace TomlQuery

/-- The document tree, embedding `toml::Value`.  `integer`, `str` and
`boolean` stand for the scalar leaves; the source code never inspects a
scalar beyond the fact that it is neither a Table nor an Array, and all
scalar variants take the same `_` branch in every match of `set.rs`. -/
inductive Value where
  | integer (i : Int)
  | str (s : String)
  | boolean (b : Bool)
  | array (a : List Value)
  | table (t : List (String × Value))

/-- The error kinds of src/error.rs (the `error_chain!` block). -/
inductive Error where
  | QueryParsingError (query : String)
  | EmptyQueryError
  | EmptyIdentifier
  | ArrayAccessWithoutIndex
  | ArrayAccessWithInvalidIndex
  | IdentifierNotFoundInDocument (ident : String)
  | NoIndexInTable (i : Nat)
  | NoIdentifierInArray (s : String)
  | QueryingValueAsTable (s : String)
  | QueryingValueAsArray (i : Nat)
deriving DecidableEq

/-- One parsed navigation step.  Modelled from the spec: `Token` is a
tagged union `Identifier(name)` or `Index(idx)` (the textual
representation kept for diagnostics is dropped, the code never reads
it). -/
inductive Token where
  | identifier (ident : String)
  | index (idx : Nat)
deriving DecidableEq

/-- Lookup in the association-list embedding of `toml::map::Map`. -/
def tableGet : List (String × Value) → String → Option Value
  | [], _ => none
  | (k', v') :: rest, k => if k' = k then some v' else tableGet rest k

/-- Insert-or-replace in the association-list embedding of
`toml::map::Map`: a present key has its value replaced in place, an
absent key is appended.  `Map::insert`'s returned old value is
`tableGet t k`. -/
def tableSet : List (String × Value) → String → Value → List (String × Value)
  | [], k, v => [(k, v)]
  | (k', v') :: rest, k, v =>
      if k' = k then (k', v) :: rest else (k', v') :: tableSet rest k v

/-- Whether a value is a scalar leaf, i.e. neither Table nor Array:
exactly the values taken by the `_` branches of the matches in
`set.rs`. -/
def Value.isScalar : Value → Bool
  | .table _ => false
  | .array _ => false
  | _ => true

/-- Decimal digits to a natural number, for the tokenizer's index
parsing. -/
def digitsToNat (cs : List Char) : Nat :=
  cs.foldl (fun acc c => acc * 10 + (c.toNat - 48)) 0

/-- Splitting a character list on a separator character, keeping empty
segments; the list of segments is never empty. -/
def splitChars (sep : Char) : List Char → List (List Char)
  | [] => [[]]
  | c :: rest =>
      match splitChars sep rest with
      | [] => [[]]
      | seg :: segs =>
          if c = sep then [] :: seg :: segs else (c :: seg) :: segs

/-- Modelled from the spec (§4.1, tokenizer source not in the corpus):
one raw segment to one token.  An empty segment fails with
`EmptyIdentifier`; a bracketed segment `[<digits>]` becomes
`Index(idx)`, with empty brackets failing with
`ArrayAccessWithoutIndex` and non-numeric bracket content failing with
`ArrayAccessWithInvalidIndex`; any other non-empty segment becomes an
`Identifier` verbatim. -/
def parseSegmentChars (cs : List Char) : Except Error Token :=
  match cs with
  | [] => .error .EmptyIdentifier
  | c :: rest =>
      if c = '[' ∧ rest.getLast? = some ']' then
        let inner := rest.dropLast
        if inner = [] then .error .ArrayAccessWithoutIndex
        else if inner.all Char.isDigit then .ok (.index (digitsToNat inner))
        else .error .ArrayAccessWithInvalidIndex
      else .ok (.identifier (String.mk cs))

/-- Modelled from the spec (§4.1): parse the segments left to right,
aborting on the first malformed segment, so that no partial token
sequence is ever returned. -/
def parseSegments : List (List Char) → Except Error (List Token)
  | [] => .ok []
  | s :: rest =>
      match parseSegmentChars s with
      | .error e => .error e
      | .ok t =>
          match parseSegments rest with
          | .error e => .error e
          | .ok ts => .ok (t :: ts)

/-- Modelled from the spec (§4.1, `crate::tokenizer`'s source not in
the corpus): the whole empty query is its own failure
`EmptyQueryError`; otherwise the query is split on the separator and
each segment parsed in order. -/
def tokenize_with_seperator (query : String) (sep : Char) : Except Error (List Token) :=
  if query = "" then .error .EmptyQueryError
  else parseSegments (splitChars sep query.toList)

/-- Modelled from the spec (§4.2, `crate::resolver::mut_resolver`'s
source not in the corpus): navigate every token of the slice from the
given node and return the node reached.  The per-step transition table
of the spec is followed; the boolean flag (always `true` when called
from `set.rs`) is modelled as error-if-not-found, because the spec's
own scenario 5 (`set("table.a")` on `{}` fails with
`IdentifierNotFoundInDocument("table")`), the doc comment of
`TomlValueSetExt::set_with_seperator` ("The function _never_ creates
intermediate data structures") and the in-repo test
`test_set_with_seperator_into_nonexistent_table` all pin down that the
`true` mode fails on a missing key instead of creating a table; with
the flag `false` a missing key yields `Ok(None)` — the source of the
guarantee that the `Ok` payload is always `Some` in the `true` mode.
An out-of-range index during navigation is always an error, also for
mutating callers (§4.2: arrays are never fabricated or extended
mid-path). -/
def resolve : Value → List Token → Bool → Except Error (Option Value)
  | v, [], _ => .ok (some v)
  | .table t, .identifier k :: rest, einf =>
      match tableGet t k with
      | some sub => resolve sub rest einf
      | none =>
          if einf then .error (.IdentifierNotFoundInDocument k) else .ok none
  | .table _, .index i :: _, _ => .error (.NoIndexInTable i)
  | .array _, .identifier k :: _, _ => .error (.NoIdentifierInArray k)
  | .array a, .index i :: rest, einf =>
      if h : i < a.length then resolve a[i] rest einf
      else .error (.IdentifierNotFoundInDocument (toString i))
  | _, .identifier k :: _, _ => .error (.QueryingValueAsTable k)
  | _, .index i :: _, _ => .error (.QueryingValueAsArray i)

/-- `Vec::swap_remove(i)` followed by `Vec::insert(i, v)`, the exact
array-update sequence of set.rs lines 73–74: swap_remove replaces the
element at `i` with the last element and pops the last slot, then
insert places `v` at `i` shifting the rest right.  (Defined for the
guarded case `i < a.length`; on an empty list the `[v]` branch is never
reached from the call site.) -/
def swapRemoveInsert (a : List Value) (i : Nat) (v : Value) : List Value :=
  match a.getLast? with
  | none => [v]
  | some lastElem => List.insertIdx i v ((a.set i lastElem).dropLast)

/-- The final-step `match *last { ... }` of `set_with_seperator`
(set.rs lines 63–84), applied to the resolved container `val`: returns
the `Result<Option<Value>>` next to the container after the call (state
passing for the Rust in-place mutation; on an error the container is
returned unchanged, as no mutating statement precedes any `Err` in the
source). -/
def applyLast (val : Value) (last : Token) (value : Value) :
    Except Error (Option Value) × Value :=
  match last with
  | .identifier ident =>
      match val with
      | .table t => (.ok (tableGet t ident), .table (tableSet t ident value))
      | .array a => (.error (.NoIdentifierInArray ident), .array a)
      | v => (.error (.QueryingValueAsTable ident), v)
  | .index idx =>
      match val with
      | .array a =>
          if h : a.length > idx then
            (.ok (some a[idx]), .array (swapRemoveInsert a idx value))
          else
            (.ok none, .array (a ++ [value]))
      | .table t => (.error (.NoIndexInTable idx), .table t)
      | v => (.error (.QueryingValueAsArray idx), v)

/-- The body of `set_with_seperator` after tokenization, at the token
level: navigate the navigation tokens exactly as `resolve` (flag
`true`) does, then apply the final-step match at the container reached.
Rust's `&mut` navigation is embedded by rebuilding the spine: each step
puts the recursively updated child back in its slot, so the tree after
the call is returned next to the result, also on the error path (where
it is the unchanged input, since the source never writes before
failing). -/
def setTokens : Value → List Token → Token → Value → Except Error (Option Value) × Value
  | v, [], last, value => applyLast v last value
  | .table t, .identifier k :: rest, last, value =>
      match tableGet t k with
      | some sub =>
          let r := setTokens sub rest last value
          (r.1, .table (tableSet t k r.2))
      | none => (.error (.IdentifierNotFoundInDocument k), .table t)
  | .table t, .index i :: _, _, _ => (.error (.NoIndexInTable i), .table t)
  | .array a, .identifier k :: _, _, _ => (.error (.NoIdentifierInArray k), .array a)
  | .array a, .index i :: rest, last, value =>
      if h : i < a.length then
        let r := setTokens a[i] rest last value
        (r.1, .array (a.set i r.2))
      else (.error (.IdentifierNotFoundInDocument (toString i)), .array a)
  | v, .identifier k :: _, _, _ => (.error (.QueryingValueAsTable k), v)
  | v, .index i :: _, _, _ => (.error (.QueryingValueAsArray i), v)

/-- `TomlValueSetExt::set_with_seperator` for `toml::Value` (set.rs
lines 49–85): tokenize, split off the last token (`pop_last`; modelled
from the spec §4.3: the navigation tokens are all tokens except the
last, and the last token is applied against the container the
navigation reaches — for a single-token query the navigation is empty
and the container is the root), then navigate and apply.  Returns the
result next to the tree after the call. -/
def set_with_seperator (v : Value) (query : String) (sep : Char) (value : Value) :
    Except Error (Option Value) × Value :=
  match tokenize_with_seperator query sep with
  | .error e => (.error e, v)
  | .ok tokens =>
      match tokens.getLast? with
      | none => (.error .EmptyQueryError, v)
      | some last => setTokens v tokens.dropLast last value

/-- `TomlValueSetExt::set` (set.rs lines 36–38): the default-separator
convenience form, delegating with `'.'`. -/
def set (v : Value) (query : String) (value : Value) :
    Except Error (Option Value) × Value :=
  set_with_seperator v query '.' value

/-! Helper lemmas about the association-list table operations and list
updates, shared by the theorems below. -/

theorem tableGet_tableSet_self (t : List (String × Value)) (k : String) (v : Value) :
    tableGet (tableSet t k v) k = some v := by
  induction t with
  | nil => simp [tableSet, tableGet]
  | cons p rest ih =>
      obtain ⟨k', v'⟩ := p
      by_cases h : k' = k
      · simp [tableSet, tableGet, h]
      · simp [tableSet, tableGet, h, ih]

theorem tableGet_tableSet_ne (t : List (String × Value)) (k k' : String) (v : Value)
    (hne : k' ≠ k) : tableGet (tableSet t k v) k' = tableGet t k' := by
  induction t with
  | nil => simp [tableSet, tableGet, Ne.symm hne]
  | cons p rest ih =>
      obtain ⟨k₀, v₀⟩ := p
      by_cases h : k₀ = k
      · subst h
        simp [tableSet, tableGet, Ne.symm hne]
      · simp [tableSet, tableGet, h, ih]

theorem tableSet_of_tableGet (t : List (String × Value)) (k : String) (sub : Value)
    (h : tableGet t k = some sub) : tableSet t k sub = t := by
  induction t with
  | nil => simp [tableGet] at h
  | cons p rest ih =>
      obtain ⟨k', v'⟩ := p
      by_cases hk : k' = k
      · simp [tableGet, hk] at h
        simp [tableSet, hk, h]
      · simp [tableGet, hk] at h
        simp [tableSet, hk, ih h]

theorem list_set_get_self (a : List Value) :
    ∀ (i : Nat) (h : i < a.length), a.set i a[i] = a := by
  induction a with
  | nil => intro i h; simp at h
  | cons x xs ih =>
      intro i h
      cases i with
      | zero => simp
      | succ n => simpa using ih n (by simpa using h)

/-- If the final-step application fails, the container is returned
unchanged (no mutating statement precedes any `Err` in the final match
of set.rs). -/
theorem applyLast_error (v : Value) (last : Token) (value : Value) (e : Error)
    (h : (applyLast v last value).1 = .error e) : (applyLast v last value).2 = v := by
  cases last with
  | identifier k => cases v <;> simp [applyLast] at h ⊢
  | index i =>
      cases v with
      | array a =>
          simp only [applyLast] at h ⊢
          split at h <;> simp_all
      | table t => simp [applyLast]
      | integer _ => simp [applyLast]
      | str _ => simp [applyLast]
      | boolean _ => simp [applyLast]

/-- The central navigation lemma: when the navigation tokens resolve
(in error-if-not-found mode) to the container `w`, the token-level set
returns exactly what the final-step application returns on `w`, and
the tree after the call resolves along the same navigation tokens to
the container after the final-step application. -/
theorem setTokens_resolve (nav : List Token) :
    ∀ (v w : Value) (last : Token) (value : Value),
    resolve v nav true = .ok (some w) →
    (setTokens v nav last value).1 = (applyLast w last value).1 ∧
    resolve (setTokens v nav last value).2 nav true =
      .ok (some (applyLast w last value).2) := by
  induction nav with
  | nil =>
      intro v w last value h
      have hv : v = w := by simpa [resolve] using h
      subst hv
      simp [setTokens, resolve]
  | cons tok rest ih =>
      intro v w last value h
      cases v with
      | table t =>
          cases tok with
          | identifier k =>
              cases hg : tableGet t k with
              | none => simp [resolve, hg] at h
              | some sub =>
                  have hres : resolve sub rest true = .ok (some w) := by
                    simpa [resolve, hg] using h
                  have hih := ih sub w last value hres
                  refine ⟨?_, ?_⟩
                  · simpa [setTokens, hg] using hih.1
                  · simpa [setTokens, resolve, hg, tableGet_tableSet_self]
                      using hih.2
          | index i => simp [resolve] at h
      | array a =>
          cases tok with
          | identifier k => simp [resolve] at h
          | index i =>
              by_cases hi : i < a.length
              · have hres : resolve a[i] rest true = .ok (some w) := by
                  simpa [resolve, hi] using h
                have hih := ih a[i] w last value hres
                refine ⟨?_, ?_⟩
                · simpa [setTokens, hi] using hih.1
                · simpa [setTokens, resolve, hi] using hih.2
              · simp [resolve, hi] at h
      | integer n => cases tok <;> simp [resolve] at h
      | str s => cases tok <;> simp [resolve] at h
      | boolean b => cases tok <;> simp [resolve] at h

/-- Whenever the token-level set returns an error, the tree after the
call is exactly the tree before the call. -/
theorem setTokens_error (nav : List Token) :
    ∀ (v : Value) (last : Token) (value : Value) (e : Error),
    (setTokens v nav last value).1 = .error e →
    (setTokens v nav last value).2 = v := by
  induction nav with
  | nil =>
      intro v last value e h
      have := applyLast_error v last value e (by simpa [setTokens] using h)
      simpa [setTokens] using this
  | cons tok rest ih =>
      intro v last value e h
      cases v with
      | table t =>
          cases tok with
          | identifier k =>
              cases hg : tableGet t k with
              | none => simp [setTokens, hg]
              | some sub =>
                  have h1 : (setTokens sub rest last value).1 = .error e := by
                    simpa [setTokens, hg] using h
                  have h2 := ih sub last value e h1
                  simp [setTokens, hg, h2, tableSet_of_tableGet t k sub hg]
          | index i => simp [setTokens]
      | array a =>
          cases tok with
          | identifier k => simp [setTokens]
          | index i =>
              by_cases hi : i < a.length
              · have h1 : (setTokens a[i] rest last value).1 = .error e := by
                  simpa [setTokens, hi] using h
                have h2 := ih a[i] last value e h1
                simp [setTokens, hi, h2, list_set_get_self a i hi]
              · simp [setTokens, hi]
      | integer n => cases tok <;> simp [setTokens]
      | str s => cases tok <;> simp [setTokens]
      | boolean b => cases tok <;> simp [setTokens]

/-- An empty segment never parses, so a query that splits into a list
containing an empty segment can never tokenize: parsing aborts at the
first malformed segment. -/
theorem parseSegments_error_of_mem_empty (segs : List (List Char)) (hmem : [] ∈ segs) :
    ∃ e, parseSegments segs = .error e := by
  induction segs with
  | nil => simp at hmem
  | cons s rest ih =>
      cases hs : parseSegmentChars s with
      | error e => exact ⟨e, by simp [parseSegments, hs]⟩
      | ok t =>
          have hsne : s ≠ [] := by
            intro hempty
            subst hempty
            simp [parseSegmentChars] at hs
          have hmem' : [] ∈ rest := by
            rcases List.mem_cons.mp hmem with h | h
            · exact absurd h.symm hsne
            · exact h
          obtain ⟨e, he⟩ := ih hmem'
          exact ⟨e, by simp [parseSegments, hs, he]⟩

/-- A successful set at the token level presupposes that the
navigation tokens resolve on the input tree, i.e. navigation only ever
walks through nodes that already exist — no intermediate node is
created to make a set succeed. -/
theorem setTokens_ok_resolve (nav : List Token) :
    ∀ (v : Value) (last : Token) (value : Value) (o : Option Value),
    (setTokens v nav last value).1 = .ok o →
    ∃ w, resolve v nav true = .ok (some w) := by
  induction nav with
  | nil => intro v _ _ _ _; exact ⟨v, by simp [resolve]⟩
  | cons tok rest ih =>
      intro v last value o h
      cases v with
      | table t =>
          cases tok with
          | identifier k =>
              cases hg : tableGet t k with
              | none => simp [setTokens, hg] at h
              | some sub =>
                  obtain ⟨w, hw⟩ := ih sub last value o (by simpa [setTokens, hg] using h)
                  exact ⟨w, by simp [resolve, hg, hw]⟩
          | index i => simp [setTokens] at h
      | array a =>
          cases tok with
          | identifier k => simp [setTokens] at h
          | index i =>
              by_cases hi : i < a.length
              · obtain ⟨w, hw⟩ := ih a[i] last value o (by simpa [setTokens, hi] using h)
                exact ⟨w, by simp [resolve, hi, hw]⟩
              · simp [setTokens, hi] at h
      | integer n => cases tok <;> simp [setTokens] at h
      | str s => cases tok <;> simp [setTokens] at h
      | boolean b => cases tok <;> simp [setTokens] at h

/-- The swap_remove/insert sequence preserves the array's length when
the index is in bounds. -/
theorem swapRemoveInsert_length (a : List Value) (idx : Nat) (value : Value)
    (h : idx < a.length) : (swapRemoveInsert a idx value).length = a.length := by
  have hne : a ≠ [] := by
    intro he
    subst he
    simp at h
  cases hl : a.getLast? with
  | none => exact absurd (List.getLast?_eq_none_iff.mp hl) hne
  | some lastElem =>
      have h1 : idx ≤ ((a.set idx lastElem).dropLast).length := by
        simp only [List.length_dropLast, List.length_set]
        omega
      simp only [swapRemoveInsert, hl, List.length_insertIdx idx _ h1,
        List.length_dropLast, List.length_set]
      omega

/-- The swap_remove/insert sequence places the new value at the written
index. -/
theorem swapRemoveInsert_getElem_self (a : List Value) (idx : Nat) (value : Value)
    (h : idx < a.length) : (swapRemoveInsert a idx value)[idx]? = some value := by
  have hne : a ≠ [] := by
    intro he
    subst he
    simp at h
  cases hl : a.getLast? with
  | none => exact absurd (List.getLast?_eq_none_iff.mp hl) hne
  | some lastElem =>
      have h1 : idx ≤ ((a.set idx lastElem).dropLast).length := by
        simp only [List.length_dropLast, List.length_set]
        omega
      have hidx : idx < (swapRemoveInsert a idx value).length := by
        rw [swapRemoveInsert_length a idx value h]
        exact h
      rw [List.getElem?_eq_getElem hidx]
      refine congrArg some ?_
      have hrw : swapRemoveInsert a idx value =
          List.insertIdx idx value ((a.set idx lastElem).dropLast) := by
        simp [swapRemoveInsert, hl]
      revert hidx
      rw [hrw]
      intro hidx
      exact List.getElem_insertIdx_self ((a.set idx lastElem).dropLast) value idx h1

/-- Frame lemma for the navigation phase: a path that diverges from the
written path at any step resolves to the same outcome after the set as
before it, whatever the separator-level tokens beyond the divergence
look like.  The divergence step is the first position where the two
token lists disagree. -/
theorem setTokens_frame (pre : List Token) :
    ∀ (v w : Value) (tokA tokB : Token) (restA restB : List Token)
      (last : Token) (value : Value) (b : Bool),
    resolve v (pre ++ tokA :: restA) true = .ok (some w) →
    tokA ≠ tokB →
    resolve (setTokens v (pre ++ tokA :: restA) last value).2 (pre ++ tokB :: restB) b =
      resolve v (pre ++ tokB :: restB) b := by
  induction pre with
  | nil =>
      intro v w tokA tokB restA restB last value b hres hne
      simp only [List.nil_append] at hres ⊢
      cases v with
      | table t =>
          cases tokA with
          | identifier k =>
              cases hg : tableGet t k with
              | none => simp [resolve, hg] at hres
              | some sub =>
                  cases tokB with
                  | identifier k' =>
                      have hk : k' ≠ k := by
                        intro hkk
                        exact hne (by rw [hkk])
                      simp [setTokens, hg, resolve, tableGet_tableSet_ne, hk]
                  | index j => simp [setTokens, hg, resolve]
          | index i => simp [resolve] at hres
      | array a =>
          cases tokA with
          | identifier k => simp [resolve] at hres
          | index i =>
              by_cases hi : i < a.length
              · cases tokB with
                | identifier k' => simp [setTokens, hi, resolve]
                | index j =>
                    have hij : i ≠ j := by
                      intro hij
                      exact hne (by rw [hij])
                    by_cases hj : j < a.length
                    · simp [setTokens, hi, resolve, hj, List.getElem_set_ne, hij]
                    · simp [setTokens, hi, resolve, hj]
              · simp [resolve, hi] at hres
      | integer n => cases tokA <;> simp [resolve] at hres
      | str s => cases tokA <;> simp [resolve] at hres
      | boolean bb => cases tokA <;> simp [resolve] at hres
  | cons tok pre' ih =>
      intro v w tokA tokB restA restB last value b hres hne
      cases v with
      | table t =>
          cases tok with
          | identifier k =>
              cases hg : tableGet t k with
              | none => simp [resolve, hg] at hres
              | some sub =>
                  have hres' : resolve sub (pre' ++ tokA :: restA) true = .ok (some w) := by
                    simpa [resolve, hg] using hres
                  have hstep := ih sub w tokA tokB restA restB last value b hres' hne
                  simp [setTokens, hg, resolve, tableGet_tableSet_self, hstep]
          | index i => simp [resolve] at hres
      | array a =>
          cases tok with
          | identifier k => simp [resolve] at hres
          | index i =>
              by_cases hi : i < a.length
              · have hres' : resolve a[i] (pre' ++ tokA :: restA) true = .ok (some w) := by
                  simpa [resolve, hi] using hres
                have hstep := ih a[i] w tokA tokB restA restB last value b hres' hne
                simp [setTokens, hi, resolve, hstep]
              · simp [resolve, hi] at hres
      | integer n => cases tok <;> simp [resolve] at hres
      | str s => cases tok <;> simp [resolve] at hres
      | boolean bb => cases tok <;> simp [resolve] at hres

/-- C10: whenever the mutating resolver, called with the navigation
tokens and the flag `true` (the only mode `set_with_seperator` uses),
returns `Ok`, its payload is `Some`: the `Ok(None)` outcome exists only
in the `false` mode, so the `unwrap` that set.rs performs on the
resolver's result never panics, for any input tree and token
sequence. -/
theorem resolve_true_ok_isSome (tokens : List Token) :
    ∀ (v : Value) (r : Option Value), resolve v tokens true = .ok r →
    r.isSome = true := by
  induction tokens with
  | nil =>
      intro v r h
      have : some v = r := by simpa [resolve] using h
      subst this; rfl
  | cons tok rest ih =>
      intro v r h
      cases v with
      | table t =>
          cases tok with
          | identifier k =>
              cases hg : tableGet t k with
              | none => simp [resolve, hg] at h
              | some sub => exact ih sub r (by simpa [resolve, hg] using h)
          | index i => simp [resolve] at h
      | array a =>
          cases tok with
          | identifier k => simp [resolve] at h
          | index i =>
              by_cases hi : i < a.length
              · exact ih a[i] r (by simpa [resolve, hi] using h)
              · simp [resolve, hi] at h
      | integer n => cases tok <;> simp [resolve] at h
      | str s => cases tok <;> simp [resolve] at h
      | boolean b => cases tok <;> simp [resolve] at h

/-- Witness for C10 at a concrete tree and token sequence. -/
theorem resolve_true_ok_isSome_witness :
    resolve (.table [("x", .integer 0)]) [.identifier "x"] true =
      .ok (some (.integer 0)) ∧
    (some (Value.integer 0)).isSome = true :=
  ⟨rfl, resolve_true_ok_isSome [.identifier "x"] (.table [("x", .integer 0)])
      (some (.integer 0)) rfl⟩

/-- C1: for every tree in which the navigation tokens reach an array
`a`, and every index `idx ≥ a.length`, set with final token
`Index(idx)` returns `Ok(None)` and afterwards the array at that place
is `a` with the new value appended as its single new last element,
regardless of how much larger `idx` is than the length — no error and
no sparse extension to `idx`. -/
theorem set_index_ge_length_appends (v : Value) (nav : List Token) (a : List Value)
    (idx : Nat) (value : Value)
    (hres : resolve v nav true = .ok (some (.array a))) (hidx : a.length ≤ idx) :
    (setTokens v nav (.index idx) value).1 = .ok none ∧
    resolve (setTokens v nav (.index idx) value).2 nav true =
      .ok (some (.array (a ++ [value]))) := by
  have h := setTokens_resolve nav v (.array a) (.index idx) value hres
  have hap : applyLast (.array a) (.index idx) value = (.ok none, .array (a ++ [value])) := by
    simp [applyLast, Nat.not_lt.mpr hidx]
  rw [hap] at h
  exact h

/-- Witness for C1: a one-element array, set at index 5, appends. -/
theorem set_index_ge_length_appends_witness :
    resolve (.table [("arr", .array [.integer 0])]) [.identifier "arr"] true =
      .ok (some (.array [.integer 0])) ∧
    [Value.integer 0].length ≤ 5 ∧
    (setTokens (.table [("arr", .array [.integer 0])]) [.identifier "arr"]
        (.index 5) (.integer 7)).1 = .ok none ∧
    resolve (setTokens (.table [("arr", .array [.integer 0])]) [.identifier "arr"]
        (.index 5) (.integer 7)).2 [.identifier "arr"] true =
      .ok (some (.array ([Value.integer 0] ++ [Value.integer 7]))) := by
  refine ⟨rfl, by decide, ?_⟩
  exact set_index_ge_length_appends (.table [("arr", .array [.integer 0])])
    [.identifier "arr"] [.integer 0] 5 (.integer 7) rfl (by decide)

/-- C2, counterexample: the claim says a set at an in-bounds index
leaves every other element in its original position, so on
`{array: [0, 1, 2]}` setting `array.[0] := 9` would have to leave the
element at position 1 equal to 1; the code (set.rs lines 73–74 does
`swap_remove(idx)` then `insert(idx, value)`) succeeds with `Some(0)`
but moves the previously last element, 2, to position 1. -/
theorem set_index_replace_counterexample :
    (set (.table [("array", .array [.integer 0, .integer 1, .integer 2])])
        "array.[0]" (.integer 9)).1 = .ok (some (.integer 0)) ∧
    resolve (.table [("array", .array [.integer 0, .integer 1, .integer 2])])
        [.identifier "array", .index 1] true = .ok (some (.integer 1)) ∧
    resolve (set (.table [("array", .array [.integer 0, .integer 1, .integer 2])])
        "array.[0]" (.integer 9)).2
        [.identifier "array", .index 1] true = .ok (some (.integer 2)) ∧
    (2 : Int) ≠ 1 :=
  ⟨rfl, rfl, rfl, by decide⟩

/-- C2, amended: for every tree in which the navigation tokens reach
an array `a`, and every `idx < a.length`, set with final token
`Index(idx)` returns `Ok(Some(e))` with `e` the element previously at
position `idx`, and afterwards the array at that place has the new
value at position `idx` and the same length — but the remaining
elements are not all kept in their original positions: the array
becomes the result of `swap_remove(idx)` followed by
`insert(idx, value)`, which moves the previously last element to
position `idx + 1`. -/
theorem set_index_lt_length_swap_replaces (v : Value) (nav : List Token)
    (a : List Value) (idx : Nat) (value : Value)
    (hres : resolve v nav true = .ok (some (.array a))) (hidx : idx < a.length) :
    (setTokens v nav (.index idx) value).1 = .ok (some a[idx]) ∧
    resolve (setTokens v nav (.index idx) value).2 nav true =
      .ok (some (.array (swapRemoveInsert a idx value))) ∧
    (swapRemoveInsert a idx value).length = a.length ∧
    (swapRemoveInsert a idx value)[idx]? = some value := by
  have h := setTokens_resolve nav v (.array a) (.index idx) value hres
  have hap : applyLast (.array a) (.index idx) value =
      (.ok (some a[idx]), .array (swapRemoveInsert a idx value)) := by
    simp [applyLast, hidx]
  rw [hap] at h
  exact ⟨h.1, h.2, swapRemoveInsert_length a idx value hidx,
    swapRemoveInsert_getElem_self a idx value hidx⟩

/-- Witness for the amended C2 on `{array: [0, 1, 2]}` at index 0. -/
theorem set_index_lt_length_swap_replaces_witness :
    (setTokens (.table [("array", .array [.integer 0, .integer 1, .integer 2])])
        [.identifier "array"] (.index 0) (.integer 9)).1 =
      .ok (some (Value.integer 0)) ∧
    resolve (setTokens (.table [("array", .array [.integer 0, .integer 1, .integer 2])])
        [.identifier "array"] (.index 0) (.integer 9)).2 [.identifier "array"] true =
      .ok (some (.array (swapRemoveInsert [.integer 0, .integer 1, .integer 2] 0 (.integer 9)))) ∧
    (swapRemoveInsert [.integer 0, .integer 1, .integer 2] 0 (.integer 9)).length =
      [Value.integer 0, Value.integer 1, Value.integer 2].length ∧
    (swapRemoveInsert [.integer 0, .integer 1, .integer 2] 0 (.integer 9))[0]? =
      some (.integer 9) :=
  set_index_lt_length_swap_replaces
    (.table [("array", .array [.integer 0, .integer 1, .integer 2])])
    [.identifier "array"] [.integer 0, .integer 1, .integer 2] 0 (.integer 9)
    rfl (by decide)

/-- C3: for every tree in which the navigation tokens reach a table
`t`, set with final token `Identifier(k)` always succeeds: it returns
the previous binding of `k` (`Some(old)` when present, `None` when
absent), and afterwards the table at that place maps `k` to the new
value. -/
theorem set_identifier_into_table (v : Value) (nav : List Token)
    (t : List (String × Value)) (k : String) (value : Value)
    (hres : resolve v nav true = .ok (some (.table t))) :
    (setTokens v nav (.identifier k) value).1 = .ok (tableGet t k) ∧
    resolve (setTokens v nav (.identifier k) value).2 nav true =
      .ok (some (.table (tableSet t k value))) ∧
    tableGet (tableSet t k value) k = some value := by
  have h := setTokens_resolve nav v (.table t) (.identifier k) value hres
  simp only [applyLast] at h
  exact ⟨h.1, h.2, tableGet_tableSet_self t k value⟩

/-- Witness for C3: replacing `a = 0` in `{tab: {a: 0}}`. -/
theorem set_identifier_into_table_witness :
    (setTokens (.table [("tab", .table [("a", .integer 0)])]) [.identifier "tab"]
        (.identifier "a") (.integer 1)).1 = .ok (tableGet [("a", .integer 0)] "a") ∧
    resolve (setTokens (.table [("tab", .table [("a", .integer 0)])]) [.identifier "tab"]
        (.identifier "a") (.integer 1)).2 [.identifier "tab"] true =
      .ok (some (.table (tableSet [("a", .integer 0)] "a" (.integer 1)))) ∧
    tableGet (tableSet [("a", .integer 0)] "a" (.integer 1)) "a" = some (.integer 1) :=
  set_identifier_into_table (.table [("tab", .table [("a", .integer 0)])])
    [.identifier "tab"] [("a", .integer 0)] "a" (.integer 1) rfl

/-- C4: starting from the empty-table root, `set("table.a", 1)` fails
with `IdentifierNotFoundInDocument("table")` and leaves the root empty;
and in general set never creates missing intermediate nodes during
navigation — a set can only succeed when the navigation tokens already
resolve on the input tree. -/
theorem set_never_creates_intermediates :
    set_with_seperator (.table []) "table.a" '.' (.integer 1) =
      (.error (.IdentifierNotFoundInDocument "table"), .table []) ∧
    ∀ (v : Value) (nav : List Token) (last : Token) (value : Value) (o : Option Value),
      (setTokens v nav last value).1 = .ok o →
      ∃ w, resolve v nav true = .ok (some w) := by
  exact ⟨rfl, fun v nav last value o h => setTokens_ok_resolve nav v last value o h⟩

/-- Witness for C4 at a concrete successful set. -/
theorem set_never_creates_intermediates_witness :
    (setTokens (.table [("t", .table [])]) [.identifier "t"]
        (.identifier "a") (.integer 1)).1 = .ok none ∧
    ∃ w, resolve (.table [("t", .table [])]) [.identifier "t"] true = .ok (some w) :=
  ⟨rfl, set_never_creates_intermediates.2 (.table [("t", .table [])])
      [.identifier "t"] (.identifier "a") (.integer 1) none rfl⟩

/-- C5: whenever `set_with_seperator` returns an error — for any tree,
query, separator and value — the tree after the call is exactly the
tree before the call: no partial write and no leftover intermediate
node is observable on the error path. -/
theorem set_error_leaves_tree_unchanged (v : Value) (q : String) (sep : Char)
    (value : Value) (e : Error)
    (h : (set_with_seperator v q sep value).1 = .error e) :
    (set_with_seperator v q sep value).2 = v := by
  unfold set_with_seperator at h ⊢
  cases ht : tokenize_with_seperator q sep with
  | error e' => simp [ht]
  | ok tokens =>
      simp only [ht] at h ⊢
      cases hl : tokens.getLast? with
      | none => simp [hl]
      | some last =>
          simp only [hl] at h ⊢
          exact setTokens_error tokens.dropLast v last value e h

/-- Witness for C5: the failing `set("table.a", 1)` on the empty root
leaves the root unchanged. -/
theorem set_error_leaves_tree_unchanged_witness :
    (set_with_seperator (.table []) "table.a" '.' (.integer 1)).1 =
      .error (.IdentifierNotFoundInDocument "table") ∧
    (set_with_seperator (.table []) "table.a" '.' (.integer 1)).2 = .table [] :=
  ⟨rfl, set_error_leaves_tree_unchanged (.table []) "table.a" '.' (.integer 1)
      (.IdentifierNotFoundInDocument "table") rfl⟩

/-- C6: at the final step, set fails with exactly the shape error
matching the container reached by the navigation tokens: a final
`Identifier(k)` against an Array yields `NoIdentifierInArray(k)` and
against a scalar yields `QueryingValueAsTable(k)`; a final `Index(i)`
against a Table yields `NoIndexInTable(i)` and against a scalar yields
`QueryingValueAsArray(i)`; each error carries the offending identifier
or index. -/
theorem set_final_step_shape_errors (v w : Value) (nav : List Token) (k : String)
    (i : Nat) (value : Value) (hres : resolve v nav true = .ok (some w)) :
    (∀ a, w = .array a →
      (setTokens v nav (.identifier k) value).1 = .error (.NoIdentifierInArray k)) ∧
    (w.isScalar = true →
      (setTokens v nav (.identifier k) value).1 = .error (.QueryingValueAsTable k)) ∧
    (∀ t, w = .table t →
      (setTokens v nav (.index i) value).1 = .error (.NoIndexInTable i)) ∧
    (w.isScalar = true →
      (setTokens v nav (.index i) value).1 = .error (.QueryingValueAsArray i)) := by
  refine ⟨?_, ?_, ?_, ?_⟩
  · rintro a rfl
    have h := (setTokens_resolve nav v (.array a) (.identifier k) value hres).1
    simpa [applyLast] using h
  · intro hsc
    have h := (setTokens_resolve nav v w (.identifier k) value hres).1
    cases w with
    | table t => simp [Value.isScalar] at hsc
    | array a => simp [Value.isScalar] at hsc
    | integer n => simpa [applyLast] using h
    | str s => simpa [applyLast] using h
    | boolean b => simpa [applyLast] using h
  · rintro t rfl
    have h := (setTokens_resolve nav v (.table t) (.index i) value hres).1
    simpa [applyLast] using h
  · intro hsc
    have h := (setTokens_resolve nav v w (.index i) value hres).1
    cases w with
    | table t => simp [Value.isScalar] at hsc
    | array a => simp [Value.isScalar] at hsc
    | integer n => simpa [applyLast] using h
    | str s => simpa [applyLast] using h
    | boolean b => simpa [applyLast] using h

/-- Witness for C6: final identifier and final index against a scalar
leaf reached through one navigation step. -/
theorem set_final_step_shape_errors_witness :
    (setTokens (.table [("x", .integer 0)]) [.identifier "x"]
        (.identifier "foo") (.integer 2)).1 = .error (.QueryingValueAsTable "foo") ∧
    (setTokens (.table [("x", .integer 0)]) [.identifier "x"]
        (.index 0) (.integer 2)).1 = .error (.QueryingValueAsArray 0) :=
  ⟨(set_final_step_shape_errors (.table [("x", .integer 0)]) (.integer 0)
      [.identifier "x"] "foo" 0 (.integer 2) rfl).2.1 rfl,
   (set_final_step_shape_errors (.table [("x", .integer 0)]) (.integer 0)
      [.identifier "x"] "foo" 0 (.integer 2) rfl).2.2.2 rfl⟩

/-- C7, counterexample: the claim says a successful set leaves every
element of the final container other than the target unchanged; on
`{a: ["p", "q", "r", "s"]}`, `set("a.[1]", "z")` succeeds (returning
`Some("q")`), yet the element at position 2 — not addressed by the
query — changes from "r" to "s" (the swap_remove/insert sequence of
set.rs lines 73–74 moves the previously last element next to the
written index). -/
theorem set_frame_counterexample :
    (set (.table [("a", .array [.str "p", .str "q", .str "r", .str "s"])])
        "a.[1]" (.str "z")).1 = .ok (some (.str "q")) ∧
    resolve (.table [("a", .array [.str "p", .str "q", .str "r", .str "s"])])
        [.identifier "a", .index 2] true = .ok (some (.str "r")) ∧
    resolve (set (.table [("a", .array [.str "p", .str "q", .str "r", .str "s"])])
        "a.[1]" (.str "z")).2 [.identifier "a", .index 2] true =
      .ok (some (.str "s")) ∧
    "s" ≠ "r" :=
  ⟨rfl, rfl, rfl, by decide⟩

/-- C7, amended: for every successful set, the only tree nodes
modified are those on the path from the root to the target container:
any path diverging from the written path at some navigation step
resolves to the same outcome after the call as before it; within the
final container, a set through a final `Identifier` leaves every other
key's binding unchanged, and an appending set through a final
out-of-range `Index` leaves every existing element unchanged in place —
but a set through a final in-bounds `Index` may reorder the other
elements of the target array (the previously last element moves next
to the written index). -/
theorem set_frame_amended (v w : Value) (pre : List Token) (tokA tokB : Token)
    (restA restB : List Token) (last : Token) (value : Value) (b : Bool)
    (hres : resolve v (pre ++ tokA :: restA) true = .ok (some w))
    (hne : tokA ≠ tokB) :
    resolve (setTokens v (pre ++ tokA :: restA) last value).2 (pre ++ tokB :: restB) b =
      resolve v (pre ++ tokB :: restB) b ∧
    (∀ (t : List (String × Value)) (k k' : String), k' ≠ k →
      ∃ t', (applyLast (.table t) (.identifier k) value).2 = .table t' ∧
        tableGet t' k' = tableGet t k') ∧
    (∀ (a : List Value) (idx i : Nat), a.length ≤ idx → i < a.length →
      ∃ arr, (applyLast (.array a) (.index idx) value).2 = .array arr ∧
        arr[i]? = a[i]?) := by
  refine ⟨setTokens_frame pre v w tokA tokB restA restB last value b hres hne, ?_, ?_⟩
  · intro t k k' hk
    exact ⟨tableSet t k value, by simp [applyLast], tableGet_tableSet_ne t k k' value hk⟩
  · intro a idx i hidx hi
    refine ⟨a ++ [value], by simp [applyLast, Nat.not_lt.mpr hidx], ?_⟩
    rw [List.getElem?_eq_getElem hi,
      List.getElem?_eq_getElem (by simp; omega : i < (a ++ [value]).length)]
    exact congrArg some (List.getElem_append_left hi)

/-- Witness for the amended C7: a set through `{t: {x: 0, y: 1}}` at
`t.x` does not disturb the diverging path `t.y`. -/
theorem set_frame_amended_witness :
    resolve (setTokens (.table [("t", .table [("x", .integer 0), ("y", .integer 1)])])
        ([] ++ Token.identifier "t" :: []) (.identifier "x") (.integer 5)).2
        ([] ++ Token.identifier "u" :: []) true =
      resolve (.table [("t", .table [("x", .integer 0), ("y", .integer 1)])])
        ([] ++ Token.identifier "u" :: []) true ∧
    ∃ t', (applyLast (.table [("x", Value.integer 0), ("y", Value.integer 1)])
        (.identifier "x") (.integer 5)).2 = .table t' ∧
      tableGet t' "y" = tableGet [("x", Value.integer 0), ("y", Value.integer 1)] "y" :=
  ⟨(set_frame_amended (.table [("t", .table [("x", .integer 0), ("y", .integer 1)])])
      (.table [("x", .integer 0), ("y", .integer 1)]) [] (.identifier "t")
      (.identifier "u") [] [] (.identifier "x") (.integer 5) true rfl
      (by decide)).1,
   (set_frame_amended (.table [("t", .table [("x", .integer 0), ("y", .integer 1)])])
      (.table [("x", .integer 0), ("y", .integer 1)]) [] (.identifier "t")
      (.identifier "u") [] [] (.identifier "x") (.integer 5) true rfl
      (by decide)).2.1 [("x", .integer 0), ("y", .integer 1)] "x" "y" (by decide)⟩

/-- C8: the empty query fails with `EmptyQueryError`; an empty segment
never tokenizes, and its per-segment error is `EmptyIdentifier`
(leading, trailing and consecutive separators shown concretely); empty
brackets fail with `ArrayAccessWithoutIndex` and non-numeric bracket
content with `ArrayAccessWithInvalidIndex`; and every tokenizer error
makes set return that very error with the tree untouched, so no partial
token sequence is ever acted on. -/
theorem tokenizer_rejects_malformed_queries (sep : Char) (v value : Value) :
    tokenize_with_seperator "" sep = .error .EmptyQueryError ∧
    parseSegmentChars [] = .error .EmptyIdentifier ∧
    (∀ (q : String), q ≠ "" → [] ∈ splitChars sep q.toList →
      ∃ e, tokenize_with_seperator q sep = .error e) ∧
    tokenize_with_seperator ".a" '.' = .error .EmptyIdentifier ∧
    tokenize_with_seperator "a." '.' = .error .EmptyIdentifier ∧
    tokenize_with_seperator "a..b" '.' = .error .EmptyIdentifier ∧
    parseSegmentChars ('[' :: [']']) = .error .ArrayAccessWithoutIndex ∧
    (∀ (inner : List Char), inner ≠ [] → inner.all Char.isDigit = false →
      parseSegmentChars ('[' :: (inner ++ [']'])) =
        .error .ArrayAccessWithInvalidIndex) ∧
    (∀ (q : String) (e : Error), tokenize_with_seperator q sep = .error e →
      set_with_seperator v q sep value = (.error e, v)) := by
  refine ⟨rfl, rfl, ?_, rfl, rfl, rfl, rfl, ?_, ?_⟩
  · intro q hq hmem
    obtain ⟨e, he⟩ := parseSegments_error_of_mem_empty (splitChars sep q.toList) hmem
    refine ⟨e, ?_⟩
    simp only [tokenize_with_seperator, hq, if_false]
    simpa [String.toList] using he
  · intro inner hne hdig
    simp [parseSegmentChars, List.getLast?_concat, List.dropLast_concat, hne, hdig]
  · intro q e he
    simp [set_with_seperator, he]

/-- Witness for C8: concrete malformed queries through each clause with
a hypothesis. -/
theorem tokenizer_rejects_malformed_queries_witness :
    (∃ e, tokenize_with_seperator "a..b" '.' = .error e) ∧
    parseSegmentChars ('[' :: (['x'] ++ [']'])) =
      .error .ArrayAccessWithInvalidIndex ∧
    set_with_seperator (.table []) ".a" '.' (.integer 0) =
      (.error .EmptyIdentifier, .table []) :=
  ⟨(tokenizer_rejects_malformed_queries '.' (.table []) (.integer 0)).2.2.1
      "a..b" (by decide) (by decide),
   (tokenizer_rejects_malformed_queries '.' (.table []) (.integer 0)).2.2.2.2.2.2.2.1
      ['x'] (by decide) (by decide),
   (tokenizer_rejects_malformed_queries '.' (.table []) (.integer 0)).2.2.2.2.2.2.2.2
      ".a" .EmptyIdentifier rfl⟩

/-- C9: for every tree, query and value, `set` is exactly
`set_with_seperator` at separator `'.'`: same result and same final
tree. -/
theorem set_eq_set_with_seperator_dot (v : Value) (q : String) (value : Value) :
    set v q value = set_with_seperator v q '.' value := rfl

end TomlQuery
